import Mathlib

/-!
Shallow embedding of swayspace (src/main.rs).

The program reads a snapshot of the window manager state (the
`WindowManagerState` struct) and computes a destination workspace number by
cycling through a candidate list.  The Rust navigation core is pure once the
snapshot is built, so it embeds directly:

* `WindowManagerState` mirrors the Rust struct field by field
  (i32 workspace numbers become `Int`).
* The Rust iterator pipeline
  `iter.cycle().skip_while(|&w| w != current).skip(1).next()` applied to a
  finite chained iterator is denoted by `cycleSearch`: it finds the first
  occurrence of `current` and returns the cyclically following element.
  When `current` does not occur, the Rust pipeline never terminates if the
  underlying iterator is non-empty (`cycle` of a non-empty iterator is
  infinite and `skip_while`'s predicate never fails), and yields `None`
  (so the callers' `.unwrap()` panics) if it is empty.  These two
  non-value outcomes are denoted by `CycleOutcome.loops` and
  `CycleOutcome.panicNone`.
* The `while` loop of `make_new_workspace_at_end` is denoted with explicit
  fuel `reserved.length + 1`, which is enough by pigeonhole (proved below:
  the loop inspects successive distinct integers, each successful
  containment test consumes a distinct list element).
* `from_wm` models the snapshot builder; the compositor queries are
  abstracted as its inputs, and the `.unwrap()` panics on inconsistent
  state are denoted by `Option.none`.
-/

inductive Direction where
  | Prev
  | Next
  deriving DecidableEq

/-- Outcome of the Rust cyclic-iterator pipeline followed by `.unwrap()`:
either a destination value, a panic on `None` (empty iterator), or an
infinite loop (non-empty iterator that never yields the current workspace). -/
inductive CycleOutcome where
  | dest (n : Int)
  | panicNone
  | loops
  deriving DecidableEq

/-- Mirrors the Rust struct `WindowManagerState`. -/
structure WindowManagerState where
  current_workspace : Int
  workspaces_on_focused_output : List Int
  workspaces_on_unfocused_outputs : List Int
  max_workspace_on_focused_output : Int
  is_max_workspace_empty : Bool
  visible_workspace_per_output : List Int
  deriving DecidableEq

/-- The `while self.workspaces_on_unfocused_outputs.contains(&index) { index += 1 }`
loop of `make_new_workspace_at_end`, with explicit fuel. -/
def skipReserved (reserved : List Int) : Nat → Int → Int
  | 0, n => n
  | fuel + 1, n => if n ∈ reserved then skipReserved reserved fuel (n + 1) else n

/-- Rust `WindowManagerState::make_new_workspace_at_end`: start at
`max_workspace_on_focused_output + 1` and increment past numbers reserved on
unfocused outputs.  Fuel `length + 1` is sufficient (see `skipReserved_spec`
and `exists_free_in_window`). -/
def WindowManagerState.make_new_workspace_at_end (s : WindowManagerState) : Int :=
  skipReserved s.workspaces_on_unfocused_outputs
    (s.workspaces_on_unfocused_outputs.length + 1)
    (s.max_workspace_on_focused_output + 1)

/-- The scan `(1..self.current_workspace).rev().find(|num| !reserved.contains(num))`:
visit `n, n-1, ...` for `fuel` steps, returning the first value not reserved. -/
def scanDown (reserved : List Int) : Nat → Int → Option Int
  | 0, _ => none
  | fuel + 1, n => if n ∈ reserved then scanDown reserved fuel (n - 1) else some n

/-- Rust `WindowManagerState::make_new_workspace_at_start`:
`(1..current).rev().find(|num| !reserved.contains(num)).unwrap_or(current)`.
The reversed range `1..current` visits `current-1, ..., 1`, which is
`(current-1).toNat` values starting at `current - 1`. -/
def WindowManagerState.make_new_workspace_at_start (s : WindowManagerState) : Int :=
  (scanDown s.workspaces_on_unfocused_outputs
    (s.current_workspace - 1).toNat (s.current_workspace - 1)).getD s.current_workspace

/-- Denotation of
`full.into_iter().cycle().skip_while(|&w| w != c).skip(1).next()` while the
remaining suffix to scan is the third argument (initially `full` itself):
on the first element equal to `c`, yield the next element, wrapping to the
head of `full` at the end of the list. -/
def cycleSearch (full : List Int) (c : Int) : List Int → CycleOutcome
  | [] => if full = [] then CycleOutcome.panicNone else CycleOutcome.loops
  | x :: rest =>
    if x = c then
      match rest with
      | y :: _ => CycleOutcome.dest y
      | [] =>
        match full with
        | z :: _ => CycleOutcome.dest z
        | [] => CycleOutcome.panicNone
    else cycleSearch full c rest

def cycleDir (l : List Int) (c : Int) : CycleOutcome := cycleSearch l c l

/-- The first `.chain(...)` argument in `cycle_through`: a new trailing
workspace number, unless static behaviour or an empty max workspace with
more than one workspace on the focused output suppress it. -/
def WindowManagerState.endOption (s : WindowManagerState) (static_behaviour : Bool) : List Int :=
  if static_behaviour = true ∨
      (s.is_max_workspace_empty = true ∧ 1 < s.workspaces_on_focused_output.length) then []
  else [s.make_new_workspace_at_end]

/-- The second `.chain(...)` argument in `cycle_through`: a new leading
workspace number, present only when not static, the max workspace is empty
and exactly one workspace lives on the focused output. -/
def WindowManagerState.startOption (s : WindowManagerState) (static_behaviour : Bool) : List Int :=
  if static_behaviour = true ∨
      ¬ (s.is_max_workspace_empty = true ∧ s.workspaces_on_focused_output.length = 1) then []
  else [s.make_new_workspace_at_start]

/-- Rust `WindowManagerState::cycle_through`: chain the candidate iterator
with the optional end and start workspaces, then walk cyclically one step
from the current workspace (reversing first for `Prev`). -/
def WindowManagerState.cycle_through (s : WindowManagerState) (workspaces : List Int)
    (dir : Direction) (static_behaviour : Bool) : CycleOutcome :=
  match dir with
  | Direction.Next =>
    cycleDir (workspaces ++ s.endOption static_behaviour ++ s.startOption static_behaviour)
      s.current_workspace
  | Direction.Prev =>
    cycleDir (workspaces ++ s.endOption static_behaviour ++ s.startOption static_behaviour).reverse
      s.current_workspace

/-- Rust `1..=m` for `i32`, as a list (empty when `m < 1`). -/
def rangeFromOne (m : Int) : List Int := (List.range m.toNat).map (fun i : Nat => (i : Int) + 1)

/-- Rust `WindowManagerState::cycle_through_workspaces_on_focused_output`:
with `walk_into_gaps` the candidates are `1..=max` minus the reserved
numbers, otherwise the workspaces existing on the focused output. -/
def WindowManagerState.cycle_through_workspaces_on_focused_output (s : WindowManagerState)
    (walk_into_gaps : Bool) (dir : Direction) (static_behaviour : Bool) : CycleOutcome :=
  match walk_into_gaps with
  | true =>
    s.cycle_through
      ((rangeFromOne s.max_workspace_on_focused_output).filter
        (fun w => decide (w ∉ s.workspaces_on_unfocused_outputs)))
      dir static_behaviour
  | false =>
    s.cycle_through s.workspaces_on_focused_output dir static_behaviour

/-- Rust `WindowManagerState::cycle_through_outputs`: cycle through the
visible workspace of each output, with static behaviour forced on. -/
def WindowManagerState.cycle_through_outputs (s : WindowManagerState) (dir : Direction) :
    CycleOutcome :=
  s.cycle_through s.visible_workspace_per_output dir true

/-- One workspace as reported by the compositor (`swayipc` reply fields used
by `from_wm`). -/
structure WorkspaceSummary where
  num : Int
  output : String
  focused : Bool
  visible : Bool
  representation : String
  deriving DecidableEq

/-- One output as collected by `from_wm` (fields in the Rust `Output`
struct, whose derived `Ord` is lexicographic on them in order). -/
structure OutputRec where
  x_pos : Int
  y_pos : Int
  name : String
  deriving DecidableEq

def insertBy {α : Type} (le : α → α → Bool) (x : α) : List α → List α
  | [] => [x]
  | y :: ys => if le x y then x :: y :: ys else y :: insertBy le x ys

/-- Insertion sort; stands in for the Rust `sort`/`sort_unstable` calls. -/
def sortBy {α : Type} (le : α → α → Bool) : List α → List α
  | [] => []
  | x :: xs => insertBy le x (sortBy le xs)

def sortAsc (l : List Int) : List Int := sortBy (fun a b => decide (a ≤ b)) l

/-- Lexicographic order on `(x_pos, y_pos, name)`, the derived `Ord` of the
Rust `Output` struct. -/
def outputLe (a b : OutputRec) : Bool :=
  decide (a.x_pos < b.x_pos) ||
    (a.x_pos == b.x_pos &&
      (decide (a.y_pos < b.y_pos) ||
        (a.y_pos == b.y_pos && (a.name == b.name || decide (a.name < b.name)))))

/-- Rust `WindowManagerState::from_wm`.  The compositor queries are
abstracted as inputs: `focusedOutputName` is the result of searching the
layout tree for a focused output node (`None` when no output is focused),
`outputs` is `get_outputs()`, `allWorkspaces` is `get_workspaces()`.  Every
`.unwrap()` on a failed lookup (no focused output, no focused workspace,
no workspace on the focused output) is denoted by `none`.  The Rust
`partition_in_place` is denoted by the two complementary filters: the
focused-output side is re-sorted ascending immediately afterwards exactly
as in the Rust, and the unfocused side is only ever used as a set. -/
def from_wm (focusedOutputName : Option String) (outputs : List OutputRec)
    (allWorkspaces : List WorkspaceSummary) : Option WindowManagerState :=
  match focusedOutputName with
  | none => none
  | some focused_output_name =>
    let sortedOutputs := sortBy outputLe outputs
    let visibleWorkspaces := allWorkspaces.filter (fun w => w.visible)
    let visible_workspace_per_output := sortedOutputs.filterMap
      (fun o => (visibleWorkspaces.find? (fun w => w.output == o.name)).map (fun w => w.num))
    match allWorkspaces.find? (fun w => w.focused) with
    | none => none
    | some focusedWorkspace =>
      let workspaces_on_focused_output :=
        sortAsc ((allWorkspaces.filter (fun w => w.output == focused_output_name)).map
          (fun w => w.num))
      let workspaces_on_unfocused_outputs :=
        (allWorkspaces.filter (fun w => !(w.output == focused_output_name))).map
          (fun w => w.num)
      match workspaces_on_focused_output.max? with
      | none => none
      | some max_workspace_on_focused_output =>
        match allWorkspaces.find? (fun w => w.num == max_workspace_on_focused_output) with
        | none => none
        | some maxWorkspace =>
          some ⟨focusedWorkspace.num, workspaces_on_focused_output,
            workspaces_on_unfocused_outputs, max_workspace_on_focused_output,
            maxWorkspace.representation == "", visible_workspace_per_output⟩

/-! ### Helper lemmas about the cyclic search -/

lemma cycleSearch_not_mem (full : List Int) (c : Int) :
    ∀ l, c ∉ l → cycleSearch full c l =
      if full = [] then CycleOutcome.panicNone else CycleOutcome.loops := by
  intro l
  induction l with
  | nil => intro _; rfl
  | cons x rest ih =>
    intro h
    have hx : ¬ x = c := fun e => h (by rw [← e]; exact List.mem_cons_self x rest)
    simp only [cycleSearch, if_neg hx]
    exact ih (fun hm => h (List.mem_cons_of_mem x hm))

lemma cycleSearch_mid (full : List Int) (c y : Int) :
    ∀ (pre rest : List Int), c ∉ pre →
      cycleSearch full c (pre ++ c :: y :: rest) = CycleOutcome.dest y := by
  intro pre
  induction pre with
  | nil => intro rest _; simp [cycleSearch]
  | cons a t ih =>
    intro rest h
    have ha : ¬ a = c := fun e => h (by rw [← e]; exact List.mem_cons_self a t)
    simp only [List.cons_append, cycleSearch, if_neg ha]
    exact ih rest (fun hm => h (List.mem_cons_of_mem a hm))

lemma cycleSearch_last (full : List Int) (c z : Int) (t : List Int) (hf : full = z :: t) :
    ∀ pre, c ∉ pre → cycleSearch full c (pre ++ [c]) = CycleOutcome.dest z := by
  intro pre
  induction pre with
  | nil => intro _; subst hf; simp [cycleSearch]
  | cons a t2 ih =>
    intro h
    have ha : ¬ a = c := fun e => h (by rw [← e]; exact List.mem_cons_self a t2)
    simp only [List.cons_append, cycleSearch, if_neg ha]
    exact ih (fun hm => h (List.mem_cons_of_mem a hm))

lemma cycleSearch_dest_mem (full : List Int) (c n : Int) :
    ∀ l, cycleSearch full c l = CycleOutcome.dest n → n ∈ l ∨ n ∈ full := by
  intro l
  induction l with
  | nil =>
    intro h
    by_cases hf : full = [] <;> simp [cycleSearch, hf] at h
  | cons x rest ih =>
    intro h
    by_cases hx : x = c
    · simp only [cycleSearch, if_pos hx] at h
      cases rest with
      | cons y t =>
        injection h with h2
        left
        rw [← h2]
        exact List.mem_cons_of_mem x (List.mem_cons_self y t)
      | nil =>
        cases full with
        | nil => exact absurd h (by simp)
        | cons z t2 =>
          injection h with h2
          right
          rw [← h2]
          exact List.mem_cons_self z t2
    · simp only [cycleSearch, if_neg hx] at h
      rcases ih h with h1 | h2
      · exact Or.inl (List.mem_cons_of_mem x h1)
      · exact Or.inr h2

lemma cycleSearch_total (full : List Int) (c : Int) (hf : full ≠ []) :
    ∀ l, c ∈ l → ∃ n, cycleSearch full c l = CycleOutcome.dest n := by
  intro l
  induction l with
  | nil => intro h; exact absurd h (List.not_mem_nil c)
  | cons x rest ih =>
    intro h
    by_cases hx : x = c
    · cases rest with
      | cons y t => exact ⟨y, by simp only [cycleSearch, if_pos hx]⟩
      | nil =>
        cases full with
        | nil => exact absurd rfl hf
        | cons z t => exact ⟨z, by simp only [cycleSearch, if_pos hx]⟩
    · have hc : c ∈ rest := by
        rcases List.mem_cons.mp h with h1 | h1
        · exact absurd h1.symm hx
        · exact h1
      obtain ⟨n, hn⟩ := ih hc
      exact ⟨n, by simp only [cycleSearch, if_neg hx]; exact hn⟩

/-! ### Helper lemmas about the synthesis loops -/

lemma skipReserved_spec (reserved : List Int) :
    ∀ (fuel : Nat) (n : Int), (∃ m, n ≤ m ∧ m < n + fuel ∧ m ∉ reserved) →
      n ≤ skipReserved reserved fuel n ∧ skipReserved reserved fuel n ∉ reserved ∧
        ∀ m, n ≤ m → m < skipReserved reserved fuel n → m ∈ reserved := by
  intro fuel
  induction fuel with
  | zero =>
    intro n h
    obtain ⟨m, h1, h2, _⟩ := h
    exfalso
    omega
  | succ k ih =>
    intro n h
    obtain ⟨m, h1, h2, h3⟩ := h
    by_cases hn : n ∈ reserved
    · have hmn : n + 1 ≤ m := by
        rcases eq_or_lt_of_le h1 with he | hl
        · exact absurd hn (he ▸ h3)
        · omega
      have heq : skipReserved reserved (k + 1) n = skipReserved reserved k (n + 1) := by
        simp [skipReserved, hn]
      obtain ⟨p1, p2, p3⟩ := ih (n + 1) ⟨m, hmn, by omega, h3⟩
      rw [heq]
      refine ⟨by omega, p2, ?_⟩
      intro m2 hm1 hm2
      rcases eq_or_lt_of_le hm1 with he | hl
      · rw [← he]; exact hn
      · exact p3 m2 (by omega) hm2
    · have heq : skipReserved reserved (k + 1) n = n := by
        simp [skipReserved, hn]
      rw [heq]
      exact ⟨le_refl n, hn, fun m2 hm1 hm2 => absurd hm2 (by omega)⟩

lemma exists_free_in_window (reserved : List Int) (n : Int) :
    ∃ m, n ≤ m ∧ m < n + (reserved.length + 1) ∧ m ∉ reserved := by
  by_contra h
  push_neg at h
  have hsub : Finset.Icc n (n + reserved.length) ⊆ reserved.toFinset := by
    intro m hm
    rw [Finset.mem_Icc] at hm
    rw [List.mem_toFinset]
    exact h m hm.1 (by omega)
  have hcard := Finset.card_le_card hsub
  rw [Int.card_Icc] at hcard
  have htf : reserved.toFinset.card ≤ reserved.length := reserved.toFinset_card_le
  omega

lemma make_new_workspace_at_end_spec (s : WindowManagerState) :
    s.max_workspace_on_focused_output < s.make_new_workspace_at_end ∧
      s.make_new_workspace_at_end ∉ s.workspaces_on_unfocused_outputs ∧
      ∀ m, s.max_workspace_on_focused_output < m → m < s.make_new_workspace_at_end →
        m ∈ s.workspaces_on_unfocused_outputs := by
  unfold WindowManagerState.make_new_workspace_at_end
  obtain ⟨h1, h2, h3⟩ := skipReserved_spec s.workspaces_on_unfocused_outputs
    (s.workspaces_on_unfocused_outputs.length + 1) (s.max_workspace_on_focused_output + 1)
    (exists_free_in_window _ _)
  exact ⟨by omega, h2, fun m hm1 hm2 => h3 m (by omega) hm2⟩

lemma scanDown_eq_none (reserved : List Int) :
    ∀ (fuel : Nat) (n : Int), (∀ m, n - fuel < m → m ≤ n → m ∈ reserved) →
      scanDown reserved fuel n = none := by
  intro fuel
  induction fuel with
  | zero => intro n _; rfl
  | succ k ih =>
    intro n h
    have hn : n ∈ reserved := h n (by omega) (le_refl n)
    have heq : scanDown reserved (k + 1) n = scanDown reserved k (n - 1) := by
      simp [scanDown, hn]
    rw [heq]
    exact ih (n - 1) (fun m h1 h2 => h m (by omega) (by omega))

lemma scanDown_spec (reserved : List Int) :
    ∀ (fuel : Nat) (n : Int), (∃ m, n - fuel < m ∧ m ≤ n ∧ m ∉ reserved) →
      ∃ v, scanDown reserved fuel n = some v ∧ n - fuel < v ∧ v ≤ n ∧ v ∉ reserved ∧
        ∀ m, v < m → m ≤ n → m ∈ reserved := by
  intro fuel
  induction fuel with
  | zero =>
    intro n h
    obtain ⟨m, h1, h2, _⟩ := h
    exfalso
    omega
  | succ k ih =>
    intro n h
    obtain ⟨m, h1, h2, h3⟩ := h
    by_cases hn : n ∈ reserved
    · have hmn : m ≤ n - 1 := by
        rcases eq_or_lt_of_le h2 with he | hl
        · exact absurd hn (he ▸ h3)
        · omega
      obtain ⟨v, hv, p1, p2, p3, p4⟩ := ih (n - 1) ⟨m, by omega, hmn, h3⟩
      have heq : scanDown reserved (k + 1) n = scanDown reserved k (n - 1) := by
        simp [scanDown, hn]
      refine ⟨v, by rw [heq]; exact hv, by omega, by omega, p3, ?_⟩
      intro m2 hm1 hm2
      rcases eq_or_lt_of_le hm2 with he | hl
      · rw [he]; exact hn
      · exact p4 m2 hm1 (by omega)
    · have heq : scanDown reserved (k + 1) n = some n := by
        simp [scanDown, hn]
      exact ⟨n, heq, by omega, le_refl n, hn, fun m2 hm1 hm2 => absurd hm2 (by omega)⟩

lemma scanDown_not_mem (reserved : List Int) :
    ∀ (fuel : Nat) (n v : Int), scanDown reserved fuel n = some v →
      v ∉ reserved := by
  intro fuel
  induction fuel with
  | zero => intro n v h; exact absurd h (by simp [scanDown])
  | succ k ih =>
    intro n v h
    by_cases hn : n ∈ reserved
    · simp only [scanDown, if_pos hn] at h
      exact ih (n - 1) v h
    · simp only [scanDown, if_neg hn] at h
      injection h with h2
      rw [← h2]
      exact hn

/-! ### Helper lemmas about sorted lists -/

lemma sorted_split {ws pre suf : List Int} {c : Int}
    (hsorted : List.Sorted (fun a b => a < b) ws) (hws : ws = pre ++ c :: suf) :
    (∀ a ∈ pre, a < c) ∧ (∀ b ∈ suf, c < b) ∧ List.Sorted (fun a b => a < b) suf ∧
      c ∉ pre ∧ c ∉ suf ∧ List.Sorted (fun a b => a < b) pre := by
  subst hws
  have hp : List.Pairwise (fun a b => a < b) (pre ++ c :: suf) := hsorted
  rw [List.pairwise_append] at hp
  obtain ⟨hpre, hcs, hcross⟩ := hp
  rw [List.pairwise_cons] at hcs
  obtain ⟨hcsuf, hsuf⟩ := hcs
  have h1 : ∀ a ∈ pre, a < c := fun a ha => hcross a ha c (List.mem_cons_self c suf)
  refine ⟨h1, hcsuf, hsuf, ?_, ?_, hpre⟩
  · intro hc
    exact absurd (h1 c hc) (lt_irrefl c)
  · intro hc
    exact absurd (hcsuf c hc) (lt_irrefl c)

lemma sorted_headD_le {l : List Int} (d : Int) (hs : List.Sorted (fun a b => a < b) l) :
    ∀ n ∈ l, l.headD d ≤ n := by
  cases l with
  | nil => intro n hn; exact absurd hn (List.not_mem_nil n)
  | cons x t =>
    intro n hn
    rw [List.headD_cons]
    rcases List.mem_cons.mp hn with h | h
    · exact le_of_eq h.symm
    · exact le_of_lt ((List.sorted_cons.mp hs).1 n h)

lemma getLastD_mem_of_ne_nil : ∀ (l : List Int) (d : Int), l ≠ [] → l.getLastD d ∈ l := by
  intro l
  induction l with
  | nil => intro d h; exact absurd rfl h
  | cons x t ih =>
    intro d _
    rw [List.getLastD_cons]
    cases t with
    | nil => simp [List.getLastD]
    | cons y t2 => exact List.mem_cons_of_mem x (ih x (by simp))

lemma sorted_le_getLastD : ∀ (l : List Int) (d : Int), List.Sorted (fun a b => a < b) l →
    ∀ n ∈ l, n ≤ l.getLastD d := by
  intro l
  induction l with
  | nil => intro d _ n hn; exact absurd hn (List.not_mem_nil n)
  | cons x t ih =>
    intro d hs n hn
    rw [List.getLastD_cons]
    rcases List.mem_cons.mp hn with h | h
    · subst h
      cases t with
      | nil => simp [List.getLastD]
      | cons y t2 =>
        exact le_of_lt ((List.sorted_cons.mp hs).1 _
          (getLastD_mem_of_ne_nil (y :: t2) n (by simp)))
    · exact ih x (List.sorted_cons.mp hs).2 n h

lemma cons_headD_tail : ∀ (l : List Int) (d : Int), l ≠ [] → l = l.headD d :: l.tail := by
  intro l d h
  cases l with
  | nil => exact absurd rfl h
  | cons x t => rfl

lemma headD_reverse (l : List Int) (d : Int) : l.reverse.headD d = l.getLastD d := by
  rw [List.headD_eq_head?, List.head?_reverse, List.getLastD_eq_getLast?]

lemma dropLast_concat_getLastD : ∀ (l : List Int) (d : Int), l ≠ [] →
    l.dropLast ++ [l.getLastD d] = l := by
  intro l
  induction l with
  | nil => intro d h; exact absurd rfl h
  | cons x t ih =>
    intro d _
    rw [List.getLastD_cons]
    cases t with
    | nil => rfl
    | cons y t2 =>
      rw [List.dropLast_cons₂, List.cons_append, ih x (by simp)]

lemma mem_rangeFromOne {x m : Int} : x ∈ rangeFromOne m ↔ 1 ≤ x ∧ x ≤ m := by
  unfold rangeFromOne
  rw [List.mem_map]
  constructor
  · rintro ⟨i, hi, heq⟩
    rw [List.mem_range] at hi
    omega
  · rintro ⟨h1, h2⟩
    refine ⟨(x - 1).toNat, ?_, ?_⟩
    · rw [List.mem_range]
      omega
    · omega

lemma mem_endOption {s : WindowManagerState} {static_behaviour : Bool} {n : Int}
    (h : n ∈ s.endOption static_behaviour) : n = s.make_new_workspace_at_end := by
  unfold WindowManagerState.endOption at h
  split at h
  · exact absurd h (List.not_mem_nil n)
  · exact List.mem_singleton.mp h

lemma mem_startOption {s : WindowManagerState} {static_behaviour : Bool} {n : Int}
    (h : n ∈ s.startOption static_behaviour) : n = s.make_new_workspace_at_start := by
  unfold WindowManagerState.startOption at h
  split at h
  · exact absurd h (List.not_mem_nil n)
  · exact List.mem_singleton.mp h

lemma headD_mem_of_ne_nil (l : List Int) (d : Int) (h : l ≠ []) : l.headD d ∈ l := by
  cases l with
  | nil => exact absurd rfl h
  | cons x t =>
    rw [List.headD_cons]
    exact List.mem_cons_self x t

lemma headD_append_singleton (pre : List Int) (c d : Int) :
    (pre ++ [c]).headD d = pre.headD c := by
  cases pre <;> rfl

lemma getLastD_congr (l : List Int) (d1 d2 : Int) (h : l ≠ []) :
    l.getLastD d1 = l.getLastD d2 := by
  cases l with
  | nil => exact absurd rfl h
  | cons x t => rw [List.getLastD_cons, List.getLastD_cons]

lemma sorted_mem_split {ws : List Int} {c : Int}
    (hsorted : List.Sorted (fun a b => a < b) ws) (hmem : c ∈ ws) :
    ∃ pre suf, ws = pre ++ c :: suf ∧ (∀ a ∈ pre, a < c) ∧ (∀ b ∈ suf, c < b) ∧
      List.Sorted (fun a b => a < b) suf ∧ c ∉ pre ∧ c ∉ suf ∧
      List.Sorted (fun a b => a < b) pre := by
  obtain ⟨pre, suf, hws⟩ := List.append_of_mem hmem
  obtain ⟨h1, h2, h3, h4, h5, h6⟩ := sorted_split hsorted hws
  exact ⟨pre, suf, hws, h1, h2, h3, h4, h5, h6⟩

lemma sorted_split_succ {ws : List Int} {c : Int}
    (hsorted : List.Sorted (fun a b => a < b) ws) (hmem : c ∈ ws)
    (hgt : ∃ n ∈ ws, c < n) :
    ∃ pre y rest, ws = pre ++ c :: y :: rest ∧ c ∉ pre ∧ c < y ∧
      (∀ b ∈ rest, y < b) ∧ (∀ n ∈ ws, c < n → y ≤ n) := by
  obtain ⟨pre, suf, hws, hpre, hsuf, hsorted2, hnp, hns, hsp⟩ := sorted_mem_split hsorted hmem
  obtain ⟨n0, hn0m, hn0⟩ := hgt
  cases suf with
  | nil =>
    exfalso
    rw [hws] at hn0m
    rcases List.mem_append.mp hn0m with h | h
    · exact absurd (hpre n0 h) (by omega)
    · rcases List.mem_cons.mp h with h2 | h2
      · omega
      · exact absurd h2 (List.not_mem_nil n0)
  | cons y rest =>
    refine ⟨pre, y, rest, hws, hnp, hsuf y (List.mem_cons_self y rest), ?_, ?_⟩
    · intro b hb
      exact (List.sorted_cons.mp hsorted2).1 b hb
    · intro n hn hcn
      rw [hws] at hn
      rcases List.mem_append.mp hn with h | h
      · exact absurd (hpre n h) (by omega)
      · rcases List.mem_cons.mp h with h2 | h2
        · omega
        · rcases List.mem_cons.mp h2 with h3 | h3
          · exact le_of_eq h3.symm
          · exact le_of_lt ((List.sorted_cons.mp hsorted2).1 n h3)

lemma sorted_max_split {ws : List Int} {c : Int}
    (hsorted : List.Sorted (fun a b => a < b) ws) (hmem : c ∈ ws)
    (hmax : ∀ n ∈ ws, n ≤ c) :
    ∃ pre, ws = pre ++ [c] ∧ c ∉ pre := by
  obtain ⟨pre, suf, hws, hpre, hsuf, hsorted2, hnp, hns, hsp⟩ := sorted_mem_split hsorted hmem
  cases suf with
  | nil => exact ⟨pre, hws, hnp⟩
  | cons b bs =>
    exfalso
    have hb : b ∈ ws := by
      rw [hws]
      exact List.mem_append.mpr (Or.inr (List.mem_cons_of_mem c (List.mem_cons_self b bs)))
    have h1 := hmax b hb
    have h2 := hsuf b (List.mem_cons_self b bs)
    omega

lemma sorted_min_split {ws : List Int} {c : Int}
    (hsorted : List.Sorted (fun a b => a < b) ws) (hmem : c ∈ ws)
    (hmin : ∀ n ∈ ws, c ≤ n) :
    ∃ suf, ws = c :: suf ∧ (∀ b ∈ suf, c < b) ∧
      List.Sorted (fun a b => a < b) suf ∧ c ∉ suf := by
  obtain ⟨pre, suf, hws, hpre, hsuf, hsorted2, hnp, hns, hsp⟩ := sorted_mem_split hsorted hmem
  cases pre with
  | nil => exact ⟨suf, hws, hsuf, hsorted2, hns⟩
  | cons a t =>
    exfalso
    have ha : a ∈ ws := by
      rw [hws]
      exact List.mem_append.mpr (Or.inl (List.mem_cons_self a t))
    have h1 := hmin a ha
    have h2 := hpre a (List.mem_cons_self a t)
    omega

lemma sorted_split_pred {ws : List Int} {c : Int}
    (hsorted : List.Sorted (fun a b => a < b) ws) (hmem : c ∈ ws)
    (hlt : ∃ n ∈ ws, n < c) :
    ∃ p2 y suf, ws = p2 ++ y :: c :: suf ∧ y < c ∧ c ∉ p2 ∧ c ∉ suf ∧
      (∀ b ∈ suf, c < b) ∧ (∀ n ∈ ws, n < c → n ≤ y) := by
  obtain ⟨pre, suf, hws, hpre, hsuf, hsorted2, hnp, hns, hsp⟩ := sorted_mem_split hsorted hmem
  have hpne : pre ≠ [] := by
    intro h
    subst h
    obtain ⟨n0, hn0m, hn0⟩ := hlt
    rw [hws] at hn0m
    rcases List.mem_cons.mp hn0m with h2 | h2
    · omega
    · exact absurd (hsuf n0 h2) (by omega)
  have hsplit := dropLast_concat_getLastD pre 0 hpne
  refine ⟨pre.dropLast, pre.getLastD 0, suf, ?_, ?_, ?_, hns, hsuf, ?_⟩
  · rw [hws]
    conv_lhs => rw [← hsplit]
    rw [List.append_assoc, List.singleton_append]
  · exact hpre (pre.getLastD 0) (getLastD_mem_of_ne_nil pre 0 hpne)
  · exact fun hm => hnp ((List.dropLast_sublist pre).subset hm)
  · intro n hn hcn
    rw [hws] at hn
    rcases List.mem_append.mp hn with h | h
    · exact sorted_le_getLastD pre 0 hsp n h
    · rcases List.mem_cons.mp h with h2 | h2
      · omega
      · exact absurd (hsuf n h2) (by omega)

lemma endOption_static (s : WindowManagerState) : s.endOption true = [] := by
  unfold WindowManagerState.endOption
  exact if_pos (Or.inl rfl)

lemma startOption_static (s : WindowManagerState) : s.startOption true = [] := by
  unfold WindowManagerState.startOption
  exact if_pos (Or.inl rfl)

lemma endOption_single (s : WindowManagerState)
    (hlen : s.workspaces_on_focused_output.length = 1) :
    s.endOption false = [s.make_new_workspace_at_end] := by
  unfold WindowManagerState.endOption
  rw [if_neg]
  rintro (h | ⟨h1, h2⟩)
  · exact Bool.false_ne_true h
  · omega

lemma startOption_single (s : WindowManagerState)
    (hlen : s.workspaces_on_focused_output.length = 1)
    (hemp : s.is_max_workspace_empty = true) :
    s.startOption false = [s.make_new_workspace_at_start] := by
  unfold WindowManagerState.startOption
  rw [if_neg]
  rintro (h | h)
  · exact Bool.false_ne_true h
  · exact h ⟨hemp, hlen⟩

lemma make_new_workspace_at_start_cases (s : WindowManagerState) :
    s.make_new_workspace_at_start ∉ s.workspaces_on_unfocused_outputs ∨
      s.make_new_workspace_at_start = s.current_workspace := by
  unfold WindowManagerState.make_new_workspace_at_start
  cases hscan : scanDown s.workspaces_on_unfocused_outputs
      (s.current_workspace - 1).toNat (s.current_workspace - 1) with
  | none => exact Or.inr rfl
  | some v =>
    rw [Option.getD_some]
    exact Or.inl (scanDown_not_mem _ _ _ _ hscan)

lemma start_eq_current_of_reserved (s : WindowManagerState)
    (hres : ∀ m : Int, 1 ≤ m → m < s.current_workspace →
      m ∈ s.workspaces_on_unfocused_outputs) :
    s.make_new_workspace_at_start = s.current_workspace := by
  unfold WindowManagerState.make_new_workspace_at_start
  rw [scanDown_eq_none _ _ _ (fun m h1 h2 => hres m (by omega) (by omega))]
  rfl

lemma dest_mem_chain {s : WindowManagerState} {workspaces : List Int} {dir : Direction}
    {static_behaviour : Bool} {n : Int}
    (h : s.cycle_through workspaces dir static_behaviour = CycleOutcome.dest n) :
    n ∈ workspaces ∨ n = s.make_new_workspace_at_end ∨ n = s.make_new_workspace_at_start := by
  have hl : n ∈ workspaces ++ s.endOption static_behaviour ++ s.startOption static_behaviour := by
    cases dir with
    | Next =>
      simp only [WindowManagerState.cycle_through, cycleDir] at h
      rcases cycleSearch_dest_mem _ _ _ _ h with h1 | h1 <;> exact h1
    | Prev =>
      simp only [WindowManagerState.cycle_through, cycleDir] at h
      rcases cycleSearch_dest_mem _ _ _ _ h with h1 | h1 <;> exact List.mem_reverse.mp h1
  rcases List.mem_append.mp hl with h2 | h2
  · rcases List.mem_append.mp h2 with h3 | h3
    · exact Or.inl h3
    · exact Or.inr (Or.inl (mem_endOption h3))
  · exact Or.inr (Or.inr (mem_startOption h2))

lemma cycle_through_total {s : WindowManagerState} {workspaces : List Int} (dir : Direction)
    {static_behaviour : Bool} (h : s.current_workspace ∈ workspaces) :
    ∃ n, s.cycle_through workspaces dir static_behaviour = CycleOutcome.dest n := by
  have hL : s.current_workspace ∈
      workspaces ++ s.endOption static_behaviour ++ s.startOption static_behaviour :=
    List.mem_append.mpr (Or.inl (List.mem_append.mpr (Or.inl h)))
  have hne : workspaces ++ s.endOption static_behaviour ++ s.startOption static_behaviour ≠ [] :=
    List.ne_nil_of_mem hL
  cases dir with
  | Next =>
    obtain ⟨n, hn⟩ := cycleSearch_total _ s.current_workspace hne _ hL
    exact ⟨n, by simp only [WindowManagerState.cycle_through, cycleDir]; exact hn⟩
  | Prev =>
    have hL2 := List.mem_reverse.mpr hL
    have hne2 : (workspaces ++ s.endOption static_behaviour ++
        s.startOption static_behaviour).reverse ≠ [] :=
      fun hrev => hne (List.reverse_eq_nil_iff.mp hrev)
    obtain ⟨n, hn⟩ := cycleSearch_total _ s.current_workspace hne2 _ hL2
    exact ⟨n, by simp only [WindowManagerState.cycle_through, cycleDir]; exact hn⟩

lemma cycleSearch_head_pair (full : List Int) (c e : Int) (t : List Int) :
    cycleSearch full c (c :: e :: t) = CycleOutcome.dest e := by
  simp [cycleSearch]

lemma prev_chain_dest_end (s : WindowManagerState) (cands : List Int)
    (hend : s.endOption false = [s.make_new_workspace_at_end])
    (hstart : s.startOption false = [s.current_workspace]) :
    s.cycle_through cands Direction.Prev false =
      CycleOutcome.dest s.make_new_workspace_at_end := by
  simp only [WindowManagerState.cycle_through, cycleDir, hend, hstart]
  have hrev : (cands ++ [s.make_new_workspace_at_end] ++ [s.current_workspace]).reverse
      = s.current_workspace :: s.make_new_workspace_at_end :: cands.reverse := by
    simp [List.reverse_append]
  rw [hrev]
  exact cycleSearch_head_pair _ _ _ _

/-! ### Claim theorems -/

/-- C3 counterexample: the snapshot with the sole (named, hence numbered `-1`)
workspace `-1` on the focused output satisfies all of the claim's hypotheses
(non-empty focused list containing the current workspace), yet a gap-walking
static next request builds an empty candidate chain (`1..=-1` is empty), so
the Rust pipeline yields `None` and the `.unwrap()` panics instead of
returning an integer. -/
theorem C3_counterexample :
    (([-1] : List Int) ≠ []) ∧ ((-1 : Int) ∈ ([-1] : List Int)) ∧
    WindowManagerState.cycle_through_workspaces_on_focused_output
      ⟨-1, [-1], [], -1, false, []⟩ true Direction.Next true = CycleOutcome.panicNone := by
  refine ⟨by decide, by decide, by decide⟩

/-- C3 amended: for every snapshot whose focused-output list contains the
current workspace, `cycle_through_workspaces_on_focused_output` returns a
destination for both directions and all flag settings, provided that when
`walk_into_gaps` is set the current workspace additionally is at least 1,
at most the stored maximum, and not reserved on an unfocused output (all
guaranteed by snapshot construction except positivity of the workspace
number). -/
theorem C3_totality_amended (s : WindowManagerState) (dir : Direction)
    (walk_into_gaps static_behaviour : Bool)
    (hcur : s.current_workspace ∈ s.workspaces_on_focused_output)
    (hgaps : walk_into_gaps = true →
      1 ≤ s.current_workspace ∧
        s.current_workspace ≤ s.max_workspace_on_focused_output ∧
        s.current_workspace ∉ s.workspaces_on_unfocused_outputs) :
    ∃ n, s.cycle_through_workspaces_on_focused_output walk_into_gaps dir static_behaviour =
      CycleOutcome.dest n := by
  cases walk_into_gaps with
  | false =>
    simp only [WindowManagerState.cycle_through_workspaces_on_focused_output]
    exact cycle_through_total dir hcur
  | true =>
    obtain ⟨h1, h2, h3⟩ := hgaps rfl
    simp only [WindowManagerState.cycle_through_workspaces_on_focused_output]
    exact cycle_through_total dir
      (List.mem_filter.mpr ⟨mem_rangeFromOne.mpr ⟨h1, h2⟩, decide_eq_true h3⟩)

/-- C3 witness for the amended theorem, at a snapshot with a gap-walking
next request. -/
theorem C3_witness :
    ∃ n, WindowManagerState.cycle_through_workspaces_on_focused_output
      ⟨1, [1], [], 1, false, []⟩ true Direction.Next true = CycleOutcome.dest n :=
  C3_totality_amended ⟨1, [1], [], 1, false, []⟩ Direction.Next true true (by decide)
    (fun _ => by decide)

/-- C4: when the focused-output list and the reserved set are disjoint and
the current workspace is on the focused output, every destination the
workspace-axis cycling returns — existing, gap-walked, or synthesized — is
outside the reserved set. -/
theorem C4_no_collision (s : WindowManagerState)
    (hdisj : ∀ n ∈ s.workspaces_on_focused_output, n ∉ s.workspaces_on_unfocused_outputs)
    (hcur : s.current_workspace ∈ s.workspaces_on_focused_output) :
    ∀ (walk_into_gaps : Bool) (dir : Direction) (static_behaviour : Bool) (n : Int),
      s.cycle_through_workspaces_on_focused_output walk_into_gaps dir static_behaviour =
        CycleOutcome.dest n →
      n ∉ s.workspaces_on_unfocused_outputs := by
  intro walk_into_gaps dir static_behaviour n hdest
  cases walk_into_gaps with
  | false =>
    simp only [WindowManagerState.cycle_through_workspaces_on_focused_output] at hdest
    rcases dest_mem_chain hdest with h | h | h
    · exact hdisj n h
    · rw [h]
      exact (make_new_workspace_at_end_spec s).2.1
    · rcases make_new_workspace_at_start_cases s with h2 | h2
      · exact h ▸ h2
      · rw [h, h2]
        exact hdisj _ hcur
  | true =>
    simp only [WindowManagerState.cycle_through_workspaces_on_focused_output] at hdest
    rcases dest_mem_chain hdest with h | h | h
    · exact of_decide_eq_true (List.mem_filter.mp h).2
    · rw [h]
      exact (make_new_workspace_at_end_spec s).2.1
    · rcases make_new_workspace_at_start_cases s with h2 | h2
      · exact h ▸ h2
      · rw [h, h2]
        exact hdisj _ hcur

/-- C4 witness: a dynamic next request from the sole non-empty workspace 1,
with 2 reserved elsewhere, synthesizes 3, which is not reserved. -/
theorem C4_witness : (3 : Int) ∉ ([2] : List Int) :=
  C4_no_collision ⟨1, [1], [2], 1, false, []⟩ (by decide) (by decide) false Direction.Next
    false 3 (by decide)

/-- C5: the synthesized trailing number is exactly the least integer
strictly above the stored focused-output maximum that is not reserved on an
unfocused output; and on the spec's concrete example (focused [3],
current 3 non-empty, reserved 4) a dynamic next request yields 5. -/
theorem C5_trailing_creation :
    (∀ s : WindowManagerState,
      s.max_workspace_on_focused_output < s.make_new_workspace_at_end ∧
        s.make_new_workspace_at_end ∉ s.workspaces_on_unfocused_outputs ∧
        ∀ m, s.max_workspace_on_focused_output < m → m < s.make_new_workspace_at_end →
          m ∈ s.workspaces_on_unfocused_outputs) ∧
    WindowManagerState.cycle_through_workspaces_on_focused_output
      ⟨3, [3], [4], 3, false, []⟩ false Direction.Next false = CycleOutcome.dest 5 :=
  ⟨make_new_workspace_at_end_spec, by decide⟩

/-- C5 witness: the minimality clause applied at the concrete snapshot with
reserved 4 shows the skipped number 4 is indeed reserved, and the result
avoids the reserved set. -/
theorem C5_witness :
    WindowManagerState.make_new_workspace_at_end ⟨3, [3], [4], 3, false, []⟩ ∉
      ([4] : List Int) ∧ (4 : Int) ∈ ([4] : List Int) :=
  ⟨(C5_trailing_creation.1 ⟨3, [3], [4], 3, false, []⟩).2.1,
    (C5_trailing_creation.1 ⟨3, [3], [4], 3, false, []⟩).2.2 4 (by decide) (by decide)⟩

/-- C7 counterexample: with visible list [2] and current workspace 1 absent
from it, the output-axis request does not return the current workspace
unchanged — the Rust pipeline cycles a non-empty iterator whose skip-while
predicate never fails, an infinite loop. -/
theorem C7_counterexample :
    ((1 : Int) ∉ ([2] : List Int)) ∧
    WindowManagerState.cycle_through_outputs ⟨1, [1], [], 1, false, [2]⟩ Direction.Next =
      CycleOutcome.loops ∧
    WindowManagerState.cycle_through_outputs ⟨1, [1], [], 1, false, [2]⟩ Direction.Next ≠
      CycleOutcome.dest 1 := by
  refine ⟨by decide, by decide, by decide⟩

/-- C7 amended: when the current workspace does not appear in
`visible_workspace_per_output`, an output-axis request never returns: it
loops forever when the visible list is non-empty and panics on the
`.unwrap()` of `None` when it is empty. -/
theorem C7_output_axis_absent_amended (s : WindowManagerState) (dir : Direction)
    (h : s.current_workspace ∉ s.visible_workspace_per_output) :
    s.cycle_through_outputs dir =
      if s.visible_workspace_per_output = [] then CycleOutcome.panicNone
      else CycleOutcome.loops := by
  unfold WindowManagerState.cycle_through_outputs
  cases dir with
  | Next =>
    simp only [WindowManagerState.cycle_through, cycleDir, endOption_static, startOption_static,
      List.append_nil]
    exact cycleSearch_not_mem _ _ _ h
  | Prev =>
    simp only [WindowManagerState.cycle_through, cycleDir, endOption_static, startOption_static,
      List.append_nil]
    rw [cycleSearch_not_mem _ _ _ (fun hm => h (List.mem_reverse.mp hm))]
    simp [List.reverse_eq_nil_iff]

/-- C7 witness for the amended theorem, at the counterexample snapshot in
the previous direction. -/
theorem C7_witness :
    WindowManagerState.cycle_through_outputs ⟨1, [1], [], 1, false, [2]⟩ Direction.Prev =
      (if ([2] : List Int) = [] then CycleOutcome.panicNone else CycleOutcome.loops) :=
  C7_output_axis_absent_amended ⟨1, [1], [], 1, false, [2]⟩ Direction.Prev (by decide)

/-- C9: snapshot construction fails — modeled as `from_wm` returning `none`,
matching the Rust `.unwrap()` panics which abort before any destination is
computed or command issued — whenever no output is marked focused, and
whenever the focused output owns zero workspaces. -/
theorem C9_snapshot_failure :
    (∀ (outputs : List OutputRec) (allWorkspaces : List WorkspaceSummary),
      from_wm none outputs allWorkspaces = none) ∧
    (∀ (focused_output_name : String) (outputs : List OutputRec)
        (allWorkspaces : List WorkspaceSummary),
      allWorkspaces.filter (fun w => w.output == focused_output_name) = [] →
      from_wm (some focused_output_name) outputs allWorkspaces = none) := by
  constructor
  · intro outputs allWorkspaces
    rfl
  · intro focused_output_name outputs allWorkspaces hfilter
    unfold from_wm
    dsimp only
    rw [hfilter]
    cases allWorkspaces.find? (fun w => w.focused) with
    | none => rfl
    | some focusedWorkspace => rfl

/-- C9 witness: a workspace list with no workspace on the named focused
output makes construction fail. -/
theorem C9_witness : from_wm (some "out") [] [] = none :=
  C9_snapshot_failure.2 "out" [] [] rfl

/-- C1: a workspace-axis next request without gap walking wraps to the
minimum of the focused-output list when the current workspace is its
maximum, the max workspace is empty, and more than one workspace exists;
otherwise, when some focused-output number exceeds the current workspace,
it returns the smallest such number.  The list is assumed sorted strictly
ascending (as built by `from_wm`; workspace numbers are unique) and to
contain the current workspace. -/
theorem C1_workspace_next_rule (s : WindowManagerState) (static_behaviour : Bool)
    (hsorted : List.Sorted (fun a b => a < b) s.workspaces_on_focused_output)
    (hmem : s.current_workspace ∈ s.workspaces_on_focused_output) :
    ((s.is_max_workspace_empty = true ∧ 1 < s.workspaces_on_focused_output.length ∧
        (∀ n ∈ s.workspaces_on_focused_output, n ≤ s.current_workspace)) →
      s.cycle_through_workspaces_on_focused_output false Direction.Next static_behaviour =
        CycleOutcome.dest (s.workspaces_on_focused_output.headD 0) ∧
      s.workspaces_on_focused_output.headD 0 ∈ s.workspaces_on_focused_output ∧
      ∀ n ∈ s.workspaces_on_focused_output, s.workspaces_on_focused_output.headD 0 ≤ n) ∧
    ((∃ n ∈ s.workspaces_on_focused_output, s.current_workspace < n) →
      ∃ y, s.cycle_through_workspaces_on_focused_output false Direction.Next static_behaviour =
          CycleOutcome.dest y ∧
        y ∈ s.workspaces_on_focused_output ∧ s.current_workspace < y ∧
        ∀ n ∈ s.workspaces_on_focused_output, s.current_workspace < n → y ≤ n) := by
  constructor
  · rintro ⟨hemp, hlen, hmax⟩
    obtain ⟨pre, hws, hnp⟩ := sorted_max_split hsorted hmem hmax
    have hend : s.endOption static_behaviour = [] := by
      unfold WindowManagerState.endOption
      exact if_pos (Or.inr ⟨hemp, hlen⟩)
    have hstart : s.startOption static_behaviour = [] := by
      unfold WindowManagerState.startOption
      exact if_pos (Or.inr (fun hcon => absurd hcon.2 (by omega)))
    refine ⟨?_, headD_mem_of_ne_nil _ 0 (List.ne_nil_of_mem hmem), sorted_headD_le 0 hsorted⟩
    simp only [WindowManagerState.cycle_through_workspaces_on_focused_output,
      WindowManagerState.cycle_through, cycleDir, hend, hstart, List.append_nil]
    rw [hws]
    exact cycleSearch_last _ _ _ _
      (cons_headD_tail (pre ++ [s.current_workspace]) 0 (by simp)) pre hnp
  · intro hex
    obtain ⟨pre, y, rest, hws, hnp, hcy, hyrest, hmin⟩ := sorted_split_succ hsorted hmem hex
    refine ⟨y, ?_, ?_, hcy, hmin⟩
    · simp only [WindowManagerState.cycle_through_workspaces_on_focused_output,
        WindowManagerState.cycle_through, cycleDir]
      rw [hws]
      simp only [List.append_assoc, List.cons_append]
      exact cycleSearch_mid _ _ _ pre _ hnp
    · rw [hws]
      exact List.mem_append.mpr (Or.inr (List.mem_cons_of_mem _ (List.mem_cons_self y rest)))

/-- C1 witness: the spec's wrap example — focused workspaces [2,5,7],
current 7, empty boundary, next wraps to the minimum 2. -/
theorem C1_witness :
    WindowManagerState.cycle_through_workspaces_on_focused_output
      ⟨7, [2, 5, 7], [], 7, true, []⟩ false Direction.Next true =
      CycleOutcome.dest (([2, 5, 7] : List Int).headD 0) :=
  ((C1_workspace_next_rule ⟨7, [2, 5, 7], [], 7, true, []⟩ true (by decide) (by decide)).1
    ⟨rfl, by decide, by decide⟩).1

/-- C6: on the output axis, with the current workspace occurring in the
visible-per-output list (split as `pre ++ current :: suf` with no other
occurrence), next returns the entry at the following index wrapping to the
head, prev returns the entry at the preceding index wrapping to the last,
and every destination is an existing entry of the list — no number is ever
synthesized on this axis. -/
theorem C6_output_axis (s : WindowManagerState) (pre suf : List Int)
    (hvis : s.visible_workspace_per_output = pre ++ s.current_workspace :: suf)
    (hpre : s.current_workspace ∉ pre) (hsuf : s.current_workspace ∉ suf) :
    s.cycle_through_outputs Direction.Next =
      CycleOutcome.dest (suf.headD (pre.headD s.current_workspace)) ∧
    s.cycle_through_outputs Direction.Prev =
      CycleOutcome.dest (pre.getLastD (suf.getLastD s.current_workspace)) ∧
    ∀ (dir : Direction) (n : Int), s.cycle_through_outputs dir = CycleOutcome.dest n →
      n ∈ s.visible_workspace_per_output := by
  refine ⟨?_, ?_, ?_⟩
  · unfold WindowManagerState.cycle_through_outputs
    simp only [WindowManagerState.cycle_through, cycleDir, endOption_static, startOption_static,
      List.append_nil]
    rw [hvis]
    cases suf with
    | cons y t =>
      rw [List.headD_cons]
      exact cycleSearch_mid _ _ _ pre _ hpre
    | nil =>
      rw [cycleSearch_last _ _ _ _
        (cons_headD_tail (pre ++ [s.current_workspace]) 0 (by simp)) pre hpre]
      rw [headD_append_singleton]
      rfl
  · unfold WindowManagerState.cycle_through_outputs
    simp only [WindowManagerState.cycle_through, cycleDir, endOption_static, startOption_static,
      List.append_nil]
    rw [hvis]
    have hrev : (pre ++ s.current_workspace :: suf).reverse
        = suf.reverse ++ s.current_workspace :: pre.reverse := by
      rw [List.reverse_append, List.reverse_cons, List.append_assoc, List.singleton_append]
    rw [hrev]
    have hns : s.current_workspace ∉ suf.reverse := fun hm => hsuf (List.mem_reverse.mp hm)
    by_cases hpe : pre = []
    · subst hpe
      simp only [List.reverse_nil]
      rw [cycleSearch_last _ _ _ _
        (cons_headD_tail (suf.reverse ++ [s.current_workspace]) 0 (by simp)) suf.reverse hns]
      rw [headD_append_singleton, headD_reverse]
      rfl
    · have hsplit := dropLast_concat_getLastD pre 0 hpe
      have hrev2 : pre.reverse = pre.getLastD 0 :: pre.dropLast.reverse := by
        conv_lhs => rw [← hsplit]
        rw [List.reverse_append, List.reverse_singleton, List.singleton_append]
      rw [hrev2]
      rw [cycleSearch_mid _ _ _ suf.reverse _ hns]
      rw [getLastD_congr pre 0 (suf.getLastD s.current_workspace) hpe]
  · intro dir n hdest
    cases dir with
    | Next =>
      simp only [WindowManagerState.cycle_through_outputs, WindowManagerState.cycle_through,
        cycleDir, endOption_static, startOption_static, List.append_nil] at hdest
      rcases cycleSearch_dest_mem _ _ _ _ hdest with h1 | h1 <;> exact h1
    | Prev =>
      simp only [WindowManagerState.cycle_through_outputs, WindowManagerState.cycle_through,
        cycleDir, endOption_static, startOption_static, List.append_nil] at hdest
      rcases cycleSearch_dest_mem _ _ _ _ hdest with h1 | h1 <;>
        exact List.mem_reverse.mp h1

/-- C6 witness: the spec's example — visible list [1,3,8]: next from 8
wraps to 1, prev from 1 wraps to 8. -/
theorem C6_witness :
    WindowManagerState.cycle_through_outputs ⟨8, [8], [], 8, false, [1, 3, 8]⟩ Direction.Next =
      CycleOutcome.dest 1 ∧
    WindowManagerState.cycle_through_outputs ⟨1, [1], [], 1, false, [1, 3, 8]⟩ Direction.Prev =
      CycleOutcome.dest 8 :=
  ⟨(C6_output_axis ⟨8, [8], [], 8, false, [1, 3, 8]⟩ [1, 3] [] rfl (by decide) (by decide)).1,
    (C6_output_axis ⟨1, [1], [], 1, false, [1, 3, 8]⟩ [] [3, 8] rfl (by decide) (by decide)).2.1⟩

/-- C8: with gap walking off and static behaviour on, from a current
workspace with a strictly greater focused-output neighbour, the next rule
yields a destination from which the prev rule on the same workspace list
returns to the original workspace. -/
theorem C8_round_trip (s : WindowManagerState)
    (hsorted : List.Sorted (fun a b => a < b) s.workspaces_on_focused_output)
    (hmem : s.current_workspace ∈ s.workspaces_on_focused_output)
    (hnb : ∃ n ∈ s.workspaces_on_focused_output, s.current_workspace < n) :
    ∃ y, s.cycle_through_workspaces_on_focused_output false Direction.Next true =
        CycleOutcome.dest y ∧
      ∀ s2 : WindowManagerState, s2.current_workspace = y →
        s2.workspaces_on_focused_output = s.workspaces_on_focused_output →
        s2.cycle_through_workspaces_on_focused_output false Direction.Prev true =
          CycleOutcome.dest s.current_workspace := by
  obtain ⟨pre, y, rest, hws, hnp, hcy, hyrest, hmin⟩ := sorted_split_succ hsorted hmem hnb
  refine ⟨y, ?_, ?_⟩
  · simp only [WindowManagerState.cycle_through_workspaces_on_focused_output,
      WindowManagerState.cycle_through, cycleDir, endOption_static, startOption_static,
      List.append_nil]
    rw [hws]
    exact cycleSearch_mid _ _ _ pre rest hnp
  · intro s2 h1 h2
    simp only [WindowManagerState.cycle_through_workspaces_on_focused_output,
      WindowManagerState.cycle_through, cycleDir, endOption_static, startOption_static,
      List.append_nil]
    rw [h1, h2, hws]
    have hrev : (pre ++ s.current_workspace :: y :: rest).reverse
        = rest.reverse ++ y :: s.current_workspace :: pre.reverse := by
      rw [List.reverse_append, List.reverse_cons, List.reverse_cons, List.append_assoc,
        List.append_assoc, List.singleton_append, List.singleton_append]
    rw [hrev]
    exact cycleSearch_mid _ _ _ rest.reverse _
      (fun hm => absurd (hyrest y (List.mem_reverse.mp hm)) (lt_irrefl y))

/-- C8 witness: from workspace 2 in [2,5], static next goes to 5 and static
prev from 5 returns to 2. -/
theorem C8_witness :
    WindowManagerState.cycle_through_workspaces_on_focused_output ⟨5, [2, 5], [], 5, true, []⟩
      false Direction.Prev true = CycleOutcome.dest 2 := by
  obtain ⟨y, h1, h2⟩ := C8_round_trip ⟨2, [2, 5], [], 5, true, []⟩ (by decide) (by decide)
    ⟨5, by decide, by decide⟩
  have h4 := h1.symm.trans
    (by decide : WindowManagerState.cycle_through_workspaces_on_focused_output
      ⟨2, [2, 5], [], 5, true, []⟩ false Direction.Next true = CycleOutcome.dest 5)
  injection h4 with h5
  exact h2 ⟨5, [2, 5], [], 5, true, []⟩ (by rw [h5]) rfl

/-- C10: on a focused output owning exactly one, empty workspace, with
dynamic behaviour and every number in `[1, current)` reserved elsewhere
(in particular when current = 1), a prev request returns the synthesized
trailing number — the least free integer above the maximum — and not the
current workspace or a leading number (the destination is strictly greater
than the current workspace). -/
theorem C10_prev_trailing_fallback (s : WindowManagerState) (walk_into_gaps : Bool)
    (hws : s.workspaces_on_focused_output = [s.current_workspace])
    (hemp : s.is_max_workspace_empty = true)
    (hmaxf : s.max_workspace_on_focused_output = s.current_workspace)
    (hres : ∀ m : Int, 1 ≤ m → m < s.current_workspace →
      m ∈ s.workspaces_on_unfocused_outputs) :
    s.cycle_through_workspaces_on_focused_output walk_into_gaps Direction.Prev false =
      CycleOutcome.dest s.make_new_workspace_at_end ∧
    s.current_workspace < s.make_new_workspace_at_end ∧
    s.make_new_workspace_at_end ∉ s.workspaces_on_unfocused_outputs ∧
    ∀ m, s.current_workspace < m → m < s.make_new_workspace_at_end →
      m ∈ s.workspaces_on_unfocused_outputs := by
  obtain ⟨he1, he2, he3⟩ := make_new_workspace_at_end_spec s
  have hlen : s.workspaces_on_focused_output.length = 1 := by rw [hws]; rfl
  have hend := endOption_single s hlen
  have hstart : s.startOption false = [s.current_workspace] := by
    rw [startOption_single s hlen hemp, start_eq_current_of_reserved s hres]
  refine ⟨?_, by omega, he2, fun m hm1 hm2 => he3 m (by omega) hm2⟩
  cases walk_into_gaps with
  | false =>
    simp only [WindowManagerState.cycle_through_workspaces_on_focused_output]
    exact prev_chain_dest_end s _ hend hstart
  | true =>
    simp only [WindowManagerState.cycle_through_workspaces_on_focused_output]
    exact prev_chain_dest_end s _ hend hstart

/-- C10 witness: the sole empty workspace 1 (nothing below 1 can exist), a
prev request synthesizes the trailing number 2. -/
theorem C10_witness :
    WindowManagerState.cycle_through_workspaces_on_focused_output ⟨1, [1], [], 1, true, []⟩
      false Direction.Prev false =
      CycleOutcome.dest (WindowManagerState.make_new_workspace_at_end ⟨1, [1], [], 1, true, []⟩) :=
  (C10_prev_trailing_fallback ⟨1, [1], [], 1, true, []⟩ false rfl rfl rfl
    (fun m h1 h2 => absurd (show m < 1 from h2) (by omega))).1

/-- C2 counterexample: snapshot with focused workspaces [2,5], current 2
(the minimum), max workspace 5 empty, nothing reserved.  A dynamic prev
request returns 5 — an existing workspace, the maximum (a wrap the claim
does not provide for): it is not the leading-scan result (1), not the
trailing creation (6), and no existing number is below the current
workspace, so every branch of the claim predicts a different value. -/
theorem C2_counterexample :
    WindowManagerState.cycle_through_workspaces_on_focused_output ⟨2, [2, 5], [], 5, true, []⟩
      false Direction.Prev false = CycleOutcome.dest 5 ∧
    WindowManagerState.make_new_workspace_at_start ⟨2, [2, 5], [], 5, true, []⟩ = 1 ∧
    WindowManagerState.make_new_workspace_at_end ⟨2, [2, 5], [], 5, true, []⟩ = 6 ∧
    ((5 : Int) ≠ 1) ∧ ((5 : Int) ≠ 6) ∧ ¬ ((5 : Int) < 2) ∧
    ¬ ((2 : Int) < 2) ∧ ¬ ((5 : Int) < 2) := by
  refine ⟨by decide, by decide, by decide, by decide, by decide, by decide, by decide, by decide⟩

lemma prev_min_nonempty_dest_end (s : WindowManagerState)
    (hsorted : List.Sorted (fun a b => a < b) s.workspaces_on_focused_output)
    (hmem : s.current_workspace ∈ s.workspaces_on_focused_output)
    (hce : s.current_workspace < s.make_new_workspace_at_end)
    (hmin : ∀ n ∈ s.workspaces_on_focused_output, s.current_workspace ≤ n)
    (hempf : s.is_max_workspace_empty = false) :
    s.cycle_through s.workspaces_on_focused_output Direction.Prev false =
      CycleOutcome.dest s.make_new_workspace_at_end := by
  obtain ⟨suf, hws, hsufgt, hsufsorted, hnsuf⟩ := sorted_min_split hsorted hmem hmin
  have hend : s.endOption false = [s.make_new_workspace_at_end] := by
    unfold WindowManagerState.endOption
    rw [if_neg]
    rintro (h | ⟨h1, h2⟩)
    · exact Bool.false_ne_true h
    · rw [hempf] at h1
      exact Bool.false_ne_true h1
  have hstart : s.startOption false = [] := by
    unfold WindowManagerState.startOption
    refine if_pos (Or.inr ?_)
    rintro ⟨h1, h2⟩
    rw [hempf] at h1
    exact Bool.false_ne_true h1
  simp only [WindowManagerState.cycle_through, cycleDir, hend, hstart, List.append_nil]
  rw [hws]
  have hrev : ((s.current_workspace :: suf) ++ [s.make_new_workspace_at_end]).reverse
      = (s.make_new_workspace_at_end :: suf.reverse) ++ [s.current_workspace] := by
    simp [List.reverse_append]
  rw [hrev]
  rw [cycleSearch_last _ _ _ _
    (cons_headD_tail ((s.make_new_workspace_at_end :: suf.reverse) ++ [s.current_workspace]) 0
      (by simp)) _ ?notmem]
  case notmem =>
    intro hm
    rcases List.mem_cons.mp hm with h | h
    · omega
    · exact hnsuf (List.mem_reverse.mp h)
  rw [headD_append_singleton, List.headD_cons]

/-- C2 amended: a dynamic prev request without gap walking, on a sorted
focused-output list containing the current workspace whose stored maximum
is the list's last element, behaves as follows.  (A) Mirroring next, when
the max workspace is empty, more than one workspace exists and the current
workspace is the minimum, it wraps to the maximum — the branch the original
claim lacks.  (B) When some existing number is below the current workspace
it returns the largest such number.  (C) The leading-number synthesis only
happens with exactly one (empty) workspace on the focused output and a free
number in `[1, current)`: it returns the largest such free number, which is
positive.  (D) Otherwise — current is the minimum, and the max workspace is
non-empty or the leading scan has no free number — it falls back to trailing
creation. -/
theorem C2_workspace_prev_rule_amended (s : WindowManagerState)
    (hsorted : List.Sorted (fun a b => a < b) s.workspaces_on_focused_output)
    (hmem : s.current_workspace ∈ s.workspaces_on_focused_output)
    (hmaxf : s.max_workspace_on_focused_output =
      s.workspaces_on_focused_output.getLastD 0) :
    ((s.is_max_workspace_empty = true ∧ 1 < s.workspaces_on_focused_output.length ∧
        (∀ n ∈ s.workspaces_on_focused_output, s.current_workspace ≤ n)) →
      s.cycle_through_workspaces_on_focused_output false Direction.Prev false =
        CycleOutcome.dest (s.workspaces_on_focused_output.getLastD 0) ∧
      s.workspaces_on_focused_output.getLastD 0 ∈ s.workspaces_on_focused_output ∧
      ∀ n ∈ s.workspaces_on_focused_output, n ≤ s.workspaces_on_focused_output.getLastD 0) ∧
    ((∃ n ∈ s.workspaces_on_focused_output, n < s.current_workspace) →
      ∃ y, s.cycle_through_workspaces_on_focused_output false Direction.Prev false =
          CycleOutcome.dest y ∧
        y ∈ s.workspaces_on_focused_output ∧ y < s.current_workspace ∧
        ∀ n ∈ s.workspaces_on_focused_output, n < s.current_workspace → n ≤ y) ∧
    ((s.workspaces_on_focused_output = [s.current_workspace] ∧
        s.is_max_workspace_empty = true ∧
        (∃ m : Int, 1 ≤ m ∧ m < s.current_workspace ∧
          m ∉ s.workspaces_on_unfocused_outputs)) →
      s.cycle_through_workspaces_on_focused_output false Direction.Prev false =
        CycleOutcome.dest s.make_new_workspace_at_start ∧
      1 ≤ s.make_new_workspace_at_start ∧
      s.make_new_workspace_at_start < s.current_workspace ∧
      s.make_new_workspace_at_start ∉ s.workspaces_on_unfocused_outputs ∧
      ∀ m, s.make_new_workspace_at_start < m → m < s.current_workspace →
        m ∈ s.workspaces_on_unfocused_outputs) ∧
    (((∀ n ∈ s.workspaces_on_focused_output, s.current_workspace ≤ n) ∧
        (s.is_max_workspace_empty = false ∨
          (s.workspaces_on_focused_output = [s.current_workspace] ∧
            ∀ m : Int, 1 ≤ m → m < s.current_workspace →
              m ∈ s.workspaces_on_unfocused_outputs))) →
      s.cycle_through_workspaces_on_focused_output false Direction.Prev false =
        CycleOutcome.dest s.make_new_workspace_at_end ∧
      s.current_workspace < s.make_new_workspace_at_end ∧
      s.make_new_workspace_at_end ∉ s.workspaces_on_unfocused_outputs ∧
      ∀ m, s.max_workspace_on_focused_output < m → m < s.make_new_workspace_at_end →
        m ∈ s.workspaces_on_unfocused_outputs) := by
  have hcle : s.current_workspace ≤ s.workspaces_on_focused_output.getLastD 0 :=
    sorted_le_getLastD _ 0 hsorted _ hmem
  have hce : s.current_workspace < s.make_new_workspace_at_end := by
    have h1 := (make_new_workspace_at_end_spec s).1
    omega
  refine ⟨?_, ?_, ?_, ?_⟩
  · rintro ⟨hemp, hlen, hmin⟩
    obtain ⟨suf, hws, hsufgt, hsufsorted, hnsuf⟩ := sorted_min_split hsorted hmem hmin
    have hend : s.endOption false = [] := by
      unfold WindowManagerState.endOption
      exact if_pos (Or.inr ⟨hemp, hlen⟩)
    have hstart : s.startOption false = [] := by
      unfold WindowManagerState.startOption
      exact if_pos (Or.inr (fun hcon => absurd hcon.2 (by omega)))
    refine ⟨?_, getLastD_mem_of_ne_nil _ 0 (List.ne_nil_of_mem hmem),
      sorted_le_getLastD _ 0 hsorted⟩
    simp only [WindowManagerState.cycle_through_workspaces_on_focused_output,
      WindowManagerState.cycle_through, cycleDir, hend, hstart, List.append_nil]
    rw [hws, List.reverse_cons]
    have hns : s.current_workspace ∉ suf.reverse := fun hm => hnsuf (List.mem_reverse.mp hm)
    rw [cycleSearch_last _ _ _ _
      (cons_headD_tail (suf.reverse ++ [s.current_workspace]) 0 (by simp)) suf.reverse hns]
    rw [headD_append_singleton, headD_reverse, ← List.getLastD_cons 0 s.current_workspace suf]
  · intro hex
    obtain ⟨p2, y, suf, hws, hyc, hnp2, hnsuf, hsufgt, hmax2⟩ := sorted_split_pred hsorted hmem hex
    refine ⟨y, ?_, ?_, hyc, hmax2⟩
    · have hstart : s.startOption false = [] := by
        unfold WindowManagerState.startOption
        refine if_pos (Or.inr ?_)
        rintro ⟨h1, h2⟩
        rw [hws] at h2
        simp only [List.length_append, List.length_cons] at h2
        omega
      have hemem : ∀ x ∈ s.endOption false, s.current_workspace < x := by
        intro x hx
        rw [mem_endOption hx]
        exact hce
      simp only [WindowManagerState.cycle_through_workspaces_on_focused_output,
        WindowManagerState.cycle_through, cycleDir, hstart, List.append_nil]
      rw [hws]
      have hrev : ((p2 ++ y :: s.current_workspace :: suf) ++ s.endOption false).reverse
          = (s.endOption false).reverse ++
            (suf.reverse ++ (s.current_workspace :: y :: p2.reverse)) := by
        simp [List.reverse_append]
      rw [hrev, ← List.append_assoc]
      refine cycleSearch_mid _ _ _ _ _ ?_
      intro hm
      rcases List.mem_append.mp hm with h1 | h1
      · exact absurd (hemem _ (List.mem_reverse.mp h1)) (lt_irrefl _)
      · exact hnsuf (List.mem_reverse.mp h1)
    · rw [hws]
      exact List.mem_append.mpr (Or.inr (List.mem_cons_self y _))
  · rintro ⟨hws, hemp, m0, hm1, hm2, hm3⟩
    have hc2 : 2 ≤ s.current_workspace := by omega
    obtain ⟨v, hv, p1, p2, p3, p4⟩ := scanDown_spec s.workspaces_on_unfocused_outputs
      (s.current_workspace - 1).toNat (s.current_workspace - 1) ⟨m0, by omega, by omega, hm3⟩
    have hstv : s.make_new_workspace_at_start = v := by
      unfold WindowManagerState.make_new_workspace_at_start
      rw [hv]
      rfl
    have hlen : s.workspaces_on_focused_output.length = 1 := by rw [hws]; rfl
    have hend := endOption_single s hlen
    have hstart := startOption_single s hlen hemp
    rw [hstv] at hstart ⊢
    have hv1 : 1 ≤ v := by omega
    have hv2 : v < s.current_workspace := by omega
    refine ⟨?_, hv1, hv2, p3, fun m hma hmb => p4 m hma (by omega)⟩
    simp only [WindowManagerState.cycle_through_workspaces_on_focused_output,
      WindowManagerState.cycle_through, cycleDir, hend, hstart, hws]
    show cycleSearch ([v, s.make_new_workspace_at_end] ++ [s.current_workspace])
        s.current_workspace ([v, s.make_new_workspace_at_end] ++ [s.current_workspace]) =
      CycleOutcome.dest v
    refine cycleSearch_last _ _ v [s.make_new_workspace_at_end, s.current_workspace] rfl
      [v, s.make_new_workspace_at_end] ?_
    intro hm
    rcases List.mem_cons.mp hm with h | h
    · omega
    · rcases List.mem_cons.mp h with h2 | h2
      · omega
      · exact absurd h2 (List.not_mem_nil _)
  · rintro ⟨hmin, hcase⟩
    obtain ⟨he1, he2, he3⟩ := make_new_workspace_at_end_spec s
    refine ⟨?_, hce, he2, he3⟩
    rcases hcase with hempf | ⟨hws1, hallres⟩
    · simp only [WindowManagerState.cycle_through_workspaces_on_focused_output]
      exact prev_min_nonempty_dest_end s hsorted hmem hce hmin hempf
    · have hlen : s.workspaces_on_focused_output.length = 1 := by rw [hws1]; rfl
      by_cases hemp2 : s.is_max_workspace_empty = true
      · have hend := endOption_single s hlen
        have hstart : s.startOption false = [s.current_workspace] := by
          rw [startOption_single s hlen hemp2, start_eq_current_of_reserved s hallres]
        simp only [WindowManagerState.cycle_through_workspaces_on_focused_output]
        exact prev_chain_dest_end s _ hend hstart
      · have hempf : s.is_max_workspace_empty = false := by
          cases h : s.is_max_workspace_empty
          · rfl
          · exact absurd h hemp2
        simp only [WindowManagerState.cycle_through_workspaces_on_focused_output]
        exact prev_min_nonempty_dest_end s hsorted hmem hce hmin hempf

/-- C2 witness for the amended theorem: its wrap branch at the
counterexample snapshot — prev from the minimum 2 of [2,5] with the max
workspace empty lands on the maximum 5. -/
theorem C2_witness :
    WindowManagerState.cycle_through_workspaces_on_focused_output ⟨2, [2, 5], [], 5, true, []⟩
      false Direction.Prev false = CycleOutcome.dest 5 :=
  ((C2_workspace_prev_rule_amended ⟨2, [2, 5], [], 5, true, []⟩ (by decide) (by decide) rfl).1
    ⟨rfl, by decide, by decide⟩).1
